import Mathlib

/-!
Shallow embedding of `src/algorithms/src/crh/pedersen.rs` (a Pedersen-style
collision-resistant hash over an abstract commutative group), together with
theorems settling the specification's claims about it.

Modelling conventions:
* Bytes are `Nat` values; `hash` and `bytes_to_bits` only inspect the low 8
  bits of each byte (shifts by at most 7), so no wrap-around modelling is
  needed.
* The requirements the source places on the Rust `Group` trait (a zero element
  and a commutative, associative addition) are modelled by `AddCommMonoid`.
* Fallible Rust code returns `RustResult`, whose third constructor `panicked`
  marks the two reachable Rust panics inside `hash`: indexing `bases[0]` on an
  empty window list in the `IncorrectParameterSize` branch, and calling
  `chunks(0)` when `WINDOW_SIZE = 0`.
* The compile-time size descriptor `S: PedersenSize` of the source is passed
  as an explicit argument `S : PedersenSize`.
-/

/-- The two `CRHError` variants produced by `hash` in the source. -/
inductive CRHError where
  | IncorrectInputLength (len windowSize numWindows : Nat)
  | IncorrectParameterSize (firstWindowLen numWindowsPresent windowSize numWindows : Nat)
deriving DecidableEq

/-- A Rust `Result`, extended with a `panicked` marker for runtime panics
(out-of-bounds indexing, `chunks(0)`). -/
inductive RustResult (ε α : Type) where
  | ok : α → RustResult ε α
  | err : ε → RustResult ε α
  | panicked : RustResult ε α
deriving DecidableEq

/-- The `PedersenSize` trait constants `WINDOW_SIZE` and `NUM_WINDOWS`. -/
structure PedersenSize where
  WINDOW_SIZE : Nat
  NUM_WINDOWS : Nat
deriving DecidableEq

/-- Structure `PedersenCRHParameters`: the window list of bases (`bases[i][j]`). -/
structure PedersenCRHParameters (G : Type) where
  bases : List (List G)
deriving DecidableEq

/-- Structure `PedersenCRH`: the evaluator wrapping one parameters value. -/
structure PedersenCRH (G : Type) where
  parameters : PedersenCRHParameters G
deriving DecidableEq

/-- Function `bytes_to_bits` from the source: every byte contributes its 8 bits,
least-significant bit first (`(byte >> i) & 1 == 1` for `i = 0..8`). -/
def bytes_to_bits (bytes : List Nat) : List Bool :=
  (bytes.map (fun byte => (List.range 8).map (fun i => (byte >>> i) &&& 1 == 1))).flatten

/-- Fuel-indexed worker for `listChunks`; the fuel is the list length, which
suffices as soon as the chunk width is nonzero. -/
def chunksGo (w : Nat) : Nat → List α → List (List α)
  | _, [] => []
  | 0, a :: l => [a :: l]
  | n + 1, a :: l => (a :: l).take w :: chunksGo w n ((a :: l).drop w)

/-- Rust's `slice::chunks(w)` as a list of chunks (the source only calls it
with `w = WINDOW_SIZE ≠ 0`; the `w = 0` panic is modelled inside `hash`). -/
def listChunks (w : Nat) (l : List α) : List (List α) :=
  if w = 0 then [] else chunksGo w l.length l

/-- The per-window inner loop of `hash`: starting from `G::zero()`, walk
`bits.iter().zip(powers.iter())` and add the base whenever the bit is set. -/
def windowSum {G : Type} [AddCommMonoid G] (bits : List Bool) (powers : List G) : G :=
  (bits.zip powers).foldl (fun encoded p => if p.1 then encoded + p.2 else encoded) 0

/-- The list of per-window sums: `bytes_to_bits(input).chunks(WINDOW_SIZE)`
zipped with `bases`, mapped through the inner loop. -/
def windowSums {G : Type} [AddCommMonoid G] (w : Nat) (bases : List (List G))
    (bits : List Bool) : List G :=
  ((listChunks w bits).zip bases).map (fun p => windowSum p.1 p.2)

/-- The padding step of `hash`: when the input is strictly below capacity,
append zero bytes up to `WINDOW_SIZE * NUM_WINDOWS / 8` bytes. -/
def paddedInput (S : PedersenSize) (input : List Nat) : List Nat :=
  if input.length * 8 < S.WINDOW_SIZE * S.NUM_WINDOWS then
    input ++ List.replicate (S.WINDOW_SIZE * S.NUM_WINDOWS / 8 - input.length) 0
  else input

/-- Method `PedersenCRH::hash` from the source: capacity check, zero padding,
parameter-shape check (which panics via `bases[0]` when the window list is
empty), then the windowed accumulation folded in order from `G::zero()`.
`chunks(0)` panics in Rust, hence the `WINDOW_SIZE = 0` panic marker. -/
def PedersenCRH.hash {G : Type} [AddCommMonoid G] (S : PedersenSize) (self : PedersenCRH G)
    (input : List Nat) : RustResult CRHError G :=
  if input.length * 8 > S.WINDOW_SIZE * S.NUM_WINDOWS then
    RustResult.err (CRHError.IncorrectInputLength input.length S.WINDOW_SIZE S.NUM_WINDOWS)
  else if self.parameters.bases.length ≠ S.NUM_WINDOWS then
    match self.parameters.bases with
    | [] => RustResult.panicked
    | firstWindow :: _ =>
        RustResult.err (CRHError.IncorrectParameterSize firstWindow.length
          self.parameters.bases.length S.WINDOW_SIZE S.NUM_WINDOWS)
  else if S.WINDOW_SIZE = 0 then RustResult.panicked
  else
    RustResult.ok ((windowSums S.WINDOW_SIZE self.parameters.bases
      (bytes_to_bits (paddedInput S input))).foldl (fun a b => a + b) 0)

/-- Impl `ToConstraintField for PedersenCRH`: delegate to the wrapped parameters'
projection (the delegate itself lives outside the shown sources, so it is an
arbitrary function argument here). -/
def PedersenCRH.toFieldElements {G E F : Type}
    (projection : PedersenCRHParameters G → Except E F) (self : PedersenCRH G) : Except E F :=
  projection self.parameters

/-- A parallel map-reduce combine: each worker folds its piece of the
per-window sums from the identity, and the per-piece results are combined by a
reduce with identity. Which window sums land in which piece, and in which
order, is captured by quantifying over all `pieces` whose join is a
permutation of the window-sum list (see the parallel/sequential claim). -/
def parallelReduce {G : Type} [AddCommMonoid G] (pieces : List (List G)) : G :=
  (pieces.map (fun piece => piece.foldl (fun a b => a + b) 0)).foldl (fun a b => a + b) 0

/-- Spec-side definition (from the spec's words, for the refinement claim):
chunk `i` of the bit string, i.e. bits `i*W .. i*W + W`. -/
def chunkOf (w i : Nat) (bits : List Bool) : List Bool :=
  (bits.drop (i * w)).take w

/-- Spec-side definition (from the spec's words): the group identity, plus the
window's base at position `j` for every bit position `j` in the chunk where
the bit is true. -/
def specWindowSum {G : Type} [AddCommMonoid G] (w : Nat) (chunk : List Bool)
    (window : List G) : G :=
  ∑ j in Finset.range w, if chunk.getD j false then window.getD j 0 else 0

/-- Spec-side definition (from the spec's words): the group-sum of all
`NUM_WINDOWS` window sums, in window order, starting from the identity. -/
def specTotal {G : Type} [AddCommMonoid G] (w n : Nat) (bases : List (List G))
    (bits : List Bool) : G :=
  (List.range n).foldl
    (fun acc i => acc + specWindowSum w (chunkOf w i bits) (bases.getD i [])) 0

/-! ### Basic fold and sum lemmas -/

/-- A left fold of addition from `a` is `a` plus the list sum. -/
lemma foldl_add_eq {G : Type} [AddCommMonoid G] (l : List G) (a : G) :
    l.foldl (fun x y => x + y) a = a + l.sum := by
  induction l generalizing a with
  | nil => simp
  | cons x xs ih => simp [ih, add_assoc]

/-- A left fold of `acc + f x` from `a` is `a` plus the sum of the mapped list. -/
lemma foldl_add_map {α G : Type} [AddCommMonoid G] (f : α → G) (l : List α) (a : G) :
    l.foldl (fun acc x => acc + f x) a = a + (l.map f).sum := by
  induction l generalizing a with
  | nil => simp
  | cons x xs ih => simp [ih, add_assoc]

/-- The inner accumulation loop, with a general starting accumulator. -/
lemma windowSum_go {G : Type} [AddCommMonoid G] (l : List (Bool × G)) (a : G) :
    l.foldl (fun encoded p => if p.1 then encoded + p.2 else encoded) a
      = a + (l.map (fun p => if p.1 then p.2 else 0)).sum := by
  induction l generalizing a with
  | nil => simp
  | cons p ps ih => cases hp : p.1 <;> simp [ih, hp, add_assoc]

/-- Lemma: `windowSum` is the sum of the selected bases over the zipped lists. -/
lemma windowSum_eq {G : Type} [AddCommMonoid G] (bits : List Bool) (powers : List G) :
    windowSum bits powers = ((bits.zip powers).map (fun p => if p.1 then p.2 else 0)).sum := by
  simpa [windowSum] using windowSum_go (bits.zip powers) 0

/-- The selection sum over a zip, re-indexed as a sum over base positions. -/
lemma zip_select_sum {G : Type} [AddCommMonoid G] :
    ∀ (powers : List G) (bits : List Bool), powers.length ≤ bits.length →
      ((bits.zip powers).map (fun p => if p.1 then p.2 else 0)).sum
        = ∑ j in Finset.range powers.length,
            if bits.getD j false then powers.getD j 0 else 0
  | [], bits, _ => by simp
  | p :: ps, [], h => by simp at h
  | p :: ps, b :: bs, h => by
      have ih := zip_select_sum ps bs (by simpa using h)
      simp only [List.length_cons]
      rw [Finset.sum_range_succ']
      simp only [List.getD_cons_succ, List.getD_cons_zero]
      rw [List.zip_cons_cons, List.map_cons, List.sum_cons, ih]
      exact add_comm _ _

/-- Lemma: `windowSum` computed against at least as many bits as bases is the
position-indexed selection sum. -/
lemma windowSum_spec {G : Type} [AddCommMonoid G] (bits : List Bool) (powers : List G)
    (h : powers.length ≤ bits.length) :
    windowSum bits powers
      = ∑ j in Finset.range powers.length,
          if bits.getD j false then powers.getD j 0 else 0 := by
  rw [windowSum_eq]
  exact zip_select_sum powers bits h

/-! ### Chunking lemmas -/

/-- Lemma: `chunksGo` on the empty list is empty, whatever the fuel. -/
lemma chunksGo_nil {α : Type} (w n : Nat) : chunksGo w n ([] : List α) = [] := by
  cases n <;> rfl

/-- Any fuel at least the list length computes the same chunk list. -/
lemma chunksGo_fuel {α : Type} {w : Nat} (hw : 0 < w) :
    ∀ (n m : Nat) (l : List α), l.length ≤ n → l.length ≤ m →
      chunksGo w n l = chunksGo w m l
  | _, _, [], _, _ => by rw [chunksGo_nil, chunksGo_nil]
  | 0, _, a :: l, h1, _ => by simp at h1
  | _ + 1, 0, a :: l, _, h2 => by simp at h2
  | n + 1, m + 1, a :: l, h1, h2 => by
      simp only [chunksGo]
      congr 1
      have hd : ((a :: l).drop w).length ≤ l.length := by
        simp only [List.length_drop, List.length_cons]
        omega
      exact chunksGo_fuel hw n m _ (by simp at h1; omega) (by simp at h2; omega)

/-- Lemma: `listChunks` of the empty list. -/
lemma listChunks_nil {α : Type} (w : Nat) : listChunks w ([] : List α) = [] := by
  simp [listChunks, chunksGo_nil]

/-- The defining recurrence of Rust's `chunks` for a nonzero width: the first
`w` elements, then the chunks of the rest. -/
lemma listChunks_cons {α : Type} {w : Nat} (hw : 0 < w) (l : List α) (hl : l ≠ []) :
    listChunks w l = l.take w :: listChunks w (l.drop w) := by
  cases l with
  | nil => exact absurd rfl hl
  | cons a t =>
      have hw' : w ≠ 0 := Nat.pos_iff_ne_zero.mp hw
      simp only [listChunks, if_neg hw']
      show (a :: t).take w :: chunksGo w t.length ((a :: t).drop w)
        = (a :: t).take w :: chunksGo w ((a :: t).drop w).length ((a :: t).drop w)
      congr 1
      exact chunksGo_fuel hw _ _ _ (by simp; omega) le_rfl

/-- Every element of every chunk comes from the original list. -/
lemma mem_of_mem_chunksGo {α : Type} {w : Nat} :
    ∀ {n : Nat} {l c : List α}, c ∈ chunksGo w n l → ∀ x ∈ c, x ∈ l
  | n, [], c, hc => by rw [chunksGo_nil] at hc; exact absurd hc (List.not_mem_nil c)
  | 0, a :: l, c, hc => by
      simp only [chunksGo, List.mem_singleton] at hc
      subst hc
      exact fun x hx => hx
  | n + 1, a :: l, c, hc => by
      simp only [chunksGo] at hc
      rcases List.mem_cons.mp hc with h | h
      · subst h
        exact fun x hx => List.take_subset _ _ hx
      · exact fun x hx => List.drop_subset _ _ (mem_of_mem_chunksGo h x hx)

/-- Every element of every chunk of `listChunks` comes from the original list. -/
lemma mem_of_mem_listChunks {α : Type} {w : Nat} {l c : List α}
    (hc : c ∈ listChunks w l) : ∀ x ∈ c, x ∈ l := by
  unfold listChunks at hc
  split at hc
  · exact absurd hc (List.not_mem_nil c)
  · exact mem_of_mem_chunksGo hc

/-! ### Bit decomposition lemmas -/

/-- Lemma: `bytes_to_bits` yields exactly eight bits per byte. -/
lemma bytes_to_bits_length (bytes : List Nat) :
    (bytes_to_bits bytes).length = 8 * bytes.length := by
  induction bytes with
  | nil => rfl
  | cons b bs ih =>
      simp only [bytes_to_bits, List.map_cons, List.flatten_cons, List.length_append,
        List.length_map, List.length_range, List.length_cons] at ih ⊢
      omega

/-- The bit of `bytes_to_bits` at global index `8 * k + j` is bit `j` of byte
`k`, least-significant bit first. -/
lemma bytes_to_bits_getD (bytes : List Nat) :
    ∀ k j, k < bytes.length → j < 8 →
      (bytes_to_bits bytes).getD (8 * k + j) false
        = ((bytes.getD k 0 >>> j) &&& 1 == 1) := by
  induction bytes with
  | nil => intro k j hk _; exact absurd hk (Nat.not_lt_zero k)
  | cons b bs ih =>
      intro k j hk hj
      have hblock : ((List.range 8).map (fun i => (b >>> i) &&& 1 == 1)).length = 8 := by
        simp
      cases k with
      | zero =>
          simp only [bytes_to_bits, List.map_cons, List.flatten_cons, Nat.mul_zero,
            Nat.zero_add, List.getD_cons_zero]
          rw [List.getD_append _ _ _ _ (by rw [hblock]; exact hj)]
          rw [List.getD_eq_getElem?_getD, List.getElem?_map, List.getElem?_range hj]
          rfl
      | succ k' =>
          simp only [bytes_to_bits, List.map_cons, List.flatten_cons, List.getD_cons_succ]
          have hidx : 8 * (k' + 1) + j = 8 + (8 * k' + j) := by omega
          rw [hidx, List.getD_append_right _ _ _ _ (by rw [hblock]; omega)]
          rw [hblock, Nat.add_sub_cancel_left]
          exact ih k' j (by simpa using hk) hj

/-- All bits of an all-zero byte string are false. -/
lemma bytes_to_bits_zero (bytes : List Nat) (hz : ∀ x ∈ bytes, x = 0) :
    ∀ b ∈ bytes_to_bits bytes, b = false := by
  intro b hb
  rw [bytes_to_bits] at hb
  rcases List.mem_flatten.mp hb with ⟨l, hl, hbl⟩
  rcases List.mem_map.mp hl with ⟨byte, hbyte, rfl⟩
  rcases List.mem_map.mp hbl with ⟨i, _, rfl⟩
  rw [hz byte hbyte]
  simp

/-! ### Padding lemmas -/

/-- Within capacity, the padding step always produces the input followed by
`capacity / 8 - len` zero bytes (the at-capacity case appends none). -/
lemma paddedInput_eq {S : PedersenSize} {input : List Nat}
    (h : input.length * 8 ≤ S.WINDOW_SIZE * S.NUM_WINDOWS) :
    paddedInput S input
      = input ++ List.replicate (S.WINDOW_SIZE * S.NUM_WINDOWS / 8 - input.length) 0 := by
  unfold paddedInput
  split
  · rfl
  · rename_i hge
    have heq : S.WINDOW_SIZE * S.NUM_WINDOWS / 8 = input.length := by omega
    rw [heq, Nat.sub_self, List.replicate_zero, List.append_nil]

/-- Within capacity, the padded input has exactly `capacity / 8` bytes. -/
lemma paddedInput_length {S : PedersenSize} {input : List Nat}
    (h : input.length * 8 ≤ S.WINDOW_SIZE * S.NUM_WINDOWS) :
    (paddedInput S input).length = S.WINDOW_SIZE * S.NUM_WINDOWS / 8 := by
  rw [paddedInput_eq h]
  simp only [List.length_append, List.length_replicate]
  omega

/-- Padding an already-padded-to-capacity input changes nothing. -/
lemma paddedInput_idem (S : PedersenSize) (input : List Nat)
    (h : input.length < S.WINDOW_SIZE * S.NUM_WINDOWS / 8) :
    paddedInput S (input ++ List.replicate (S.WINDOW_SIZE * S.NUM_WINDOWS / 8 - input.length) 0)
      = paddedInput S input := by
  have hcap8 : S.WINDOW_SIZE * S.NUM_WINDOWS / 8 * 8 ≤ S.WINDOW_SIZE * S.NUM_WINDOWS :=
    Nat.div_mul_le_self _ _
  have hlt : input.length * 8 < S.WINDOW_SIZE * S.NUM_WINDOWS := by omega
  have hlen :
      (input ++ List.replicate (S.WINDOW_SIZE * S.NUM_WINDOWS / 8 - input.length) 0).length
        = S.WINDOW_SIZE * S.NUM_WINDOWS / 8 := by
    simp only [List.length_append, List.length_replicate]
    omega
  rw [paddedInput_eq (le_of_lt hlt), paddedInput_eq (by rw [hlen]; exact hcap8)]
  rw [hlen, Nat.sub_self, List.replicate_zero, List.append_nil]

/-! ### Evaluating `hash` on its branches -/

/-- The oversized-input branch of `hash`: it rejects, carrying the byte
length, `WINDOW_SIZE`, and `NUM_WINDOWS`, regardless of the parameters. -/
lemma hash_capacity_err {G : Type} [AddCommMonoid G] (S : PedersenSize) (crh : PedersenCRH G)
    (input : List Nat) (h : input.length * 8 > S.WINDOW_SIZE * S.NUM_WINDOWS) :
    PedersenCRH.hash S crh input
      = RustResult.err (CRHError.IncorrectInputLength input.length S.WINDOW_SIZE
          S.NUM_WINDOWS) := by
  unfold PedersenCRH.hash
  rw [if_pos h]

/-- The shape-mismatch branch of `hash` for a nonempty window list. -/
lemma hash_shape_err {G : Type} [AddCommMonoid G] (S : PedersenSize) (crh : PedersenCRH G)
    (input : List Nat) (firstWindow : List G) (rest : List (List G))
    (hcap : ¬ input.length * 8 > S.WINDOW_SIZE * S.NUM_WINDOWS)
    (hbases : crh.parameters.bases = firstWindow :: rest)
    (hne : crh.parameters.bases.length ≠ S.NUM_WINDOWS) :
    PedersenCRH.hash S crh input
      = RustResult.err (CRHError.IncorrectParameterSize firstWindow.length
          crh.parameters.bases.length S.WINDOW_SIZE S.NUM_WINDOWS) := by
  unfold PedersenCRH.hash
  rw [if_neg hcap, if_pos hne, hbases]

/-- The shape-mismatch branch of `hash` for an empty window list panics on
the `bases[0]` indexing. -/
lemma hash_shape_panic {G : Type} [AddCommMonoid G] (S : PedersenSize) (crh : PedersenCRH G)
    (input : List Nat)
    (hcap : ¬ input.length * 8 > S.WINDOW_SIZE * S.NUM_WINDOWS)
    (hbases : crh.parameters.bases = [])
    (hne : crh.parameters.bases.length ≠ S.NUM_WINDOWS) :
    PedersenCRH.hash S crh input = RustResult.panicked := by
  unfold PedersenCRH.hash
  rw [if_neg hcap, if_pos hne, hbases]

/-- The success branch of `hash`: the in-order fold of the per-window sums of
the padded input, starting from the identity. -/
lemma hash_ok {G : Type} [AddCommMonoid G] (S : PedersenSize) (crh : PedersenCRH G)
    (input : List Nat) (hcap : input.length * 8 ≤ S.WINDOW_SIZE * S.NUM_WINDOWS)
    (hshape : crh.parameters.bases.length = S.NUM_WINDOWS) (hW : 0 < S.WINDOW_SIZE) :
    PedersenCRH.hash S crh input
      = RustResult.ok ((windowSums S.WINDOW_SIZE crh.parameters.bases
          (bytes_to_bits (paddedInput S input))).foldl (fun a b => a + b) 0) := by
  unfold PedersenCRH.hash
  rw [if_neg (by omega), if_neg (by simp [hshape]), if_neg (by omega)]

/-- Inversion: a successful `hash` result is the in-order fold of the
per-window sums. -/
lemma hash_ok_inv {G : Type} [AddCommMonoid G] {S : PedersenSize} {crh : PedersenCRH G}
    {input : List Nat} {g : G} (h : PedersenCRH.hash S crh input = RustResult.ok g) :
    g = (windowSums S.WINDOW_SIZE crh.parameters.bases
        (bytes_to_bits (paddedInput S input))).foldl (fun a b => a + b) 0 := by
  unfold PedersenCRH.hash at h
  split at h
  · exact RustResult.noConfusion h
  · split at h
    · split at h
      · exact RustResult.noConfusion h
      · exact RustResult.noConfusion h
    · split at h
      · exact RustResult.noConfusion h
      · injection h with h'
        exact h'.symm

/-! ### The windowed accumulation against the specification's description -/

/-- Lemma: `specTotal` as a mapped list sum. -/
lemma specTotal_eq_sum {G : Type} [AddCommMonoid G] (w n : Nat) (bases : List (List G))
    (bits : List Bool) :
    specTotal w n bases bits
      = ((List.range n).map
          (fun i => specWindowSum w (chunkOf w i bits) (bases.getD i []))).sum := by
  unfold specTotal
  rw [foldl_add_map, zero_add]

/-- With full windows and exactly `w * (number of windows)` bits, the code's
window sums, summed, agree with the specification's windowed total. -/
lemma windowSums_spec {G : Type} [AddCommMonoid G] {w : Nat} (hw : 0 < w)
    (bases : List (List G)) :
    ∀ (bits : List Bool), (∀ win ∈ bases, win.length = w) →
      bits.length = w * bases.length →
      (windowSums w bases bits).sum = specTotal w bases.length bases bits := by
  induction bases with
  | nil => intro bits _ _; simp [windowSums, specTotal]
  | cons b bs ih =>
      intro bits hwin hlen
      have hb : b.length = w := hwin b (List.mem_cons_self b bs)
      have hlen' : bits.length = w * bs.length + w := by
        rw [hlen, List.length_cons, Nat.mul_succ]
      have hne : bits ≠ [] := by
        apply List.ne_nil_of_length_pos
        omega
      have hdlen : (bits.drop w).length = w * bs.length := by
        rw [List.length_drop, hlen']
        omega
      have ihh := ih (bits.drop w) (fun win hwn => hwin win (List.mem_cons_of_mem b hwn)) hdlen
      have hwb : b.length ≤ (bits.take w).length := by
        rw [List.length_take]
        omega
      rw [windowSums, listChunks_cons hw bits hne, List.zip_cons_cons, List.map_cons,
        List.sum_cons]
      rw [windowSums] at ihh
      rw [ihh]
      rw [specTotal_eq_sum, specTotal_eq_sum, List.length_cons, List.range_succ_eq_map,
        List.map_cons, List.sum_cons, List.map_map]
      congr 1
      · rw [windowSum_spec (bits.take w) b hwb]
        unfold specWindowSum chunkOf
        rw [hb]
        simp
      · refine congrArg List.sum (List.map_congr_left ?_)
        intro i _
        simp only [Function.comp_apply, List.getD_cons_succ]
        congr 1
        unfold chunkOf
        rw [List.drop_drop]
        congr 1
        congr 1
        rw [Nat.succ_mul]
        omega

/-- A zip never reads past the length of the shorter list: zipping with the
left list truncated to the right list's length changes nothing. -/
lemma zip_take_len {α β : Type} :
    ∀ (l₁ : List α) (l₂ : List β), l₁.zip l₂ = (l₁.take l₂.length).zip l₂
  | _, [] => by simp
  | [], _ :: _ => by simp
  | a :: l₁, b :: l₂ => by
      simp only [List.length_cons, List.take_succ_cons, List.zip_cons_cons]
      rw [← zip_take_len l₁ l₂]

/-- Bits beyond the window's base count contribute nothing to a window sum. -/
lemma windowSum_take {G : Type} [AddCommMonoid G] (bits : List Bool) (powers : List G) :
    windowSum bits powers = windowSum (bits.take powers.length) powers := by
  unfold windowSum
  rw [← zip_take_len]

/-- A window sum over all-false bits is the identity. -/
lemma windowSum_false {G : Type} [AddCommMonoid G] (bits : List Bool) (powers : List G)
    (h : ∀ b ∈ bits, b = false) : windowSum bits powers = 0 := by
  rw [windowSum_eq]
  apply List.sum_eq_zero
  intro x hx
  rcases List.mem_map.mp hx with ⟨p, hp, rfl⟩
  have hb := h p.1 (List.of_mem_zip hp).1
  simp [hb]

/-! ### Claim theorems -/

/-- C1: for every input within capacity and every parameters value with
exactly `NUM_WINDOWS` windows of exactly `WINDOW_SIZE` bases each (with the
size descriptor meeting its data-model invariant: positive window size,
byte-aligned capacity), `hash` returns `ok` of exactly the specification's
total: decompose the zero-padded input into bits, partition into
`NUM_WINDOWS` consecutive chunks of `WINDOW_SIZE` bits, selection-sum each
chunk against its window, and group-sum the window sums in window order
starting from the identity. -/
theorem pedersen_C1 {G : Type} [AddCommMonoid G] (S : PedersenSize) (crh : PedersenCRH G)
    (input : List Nat)
    (hcap : input.length * 8 ≤ S.WINDOW_SIZE * S.NUM_WINDOWS)
    (hshape : crh.parameters.bases.length = S.NUM_WINDOWS)
    (hwin : ∀ win ∈ crh.parameters.bases, win.length = S.WINDOW_SIZE)
    (hW : 0 < S.WINDOW_SIZE)
    (hdvd : 8 ∣ S.WINDOW_SIZE * S.NUM_WINDOWS) :
    PedersenCRH.hash S crh input
      = RustResult.ok (specTotal S.WINDOW_SIZE S.NUM_WINDOWS crh.parameters.bases
          (bytes_to_bits (paddedInput S input))) := by
  rw [hash_ok S crh input hcap hshape hW, foldl_add_eq, zero_add]
  have hbits : (bytes_to_bits (paddedInput S input)).length
      = S.WINDOW_SIZE * crh.parameters.bases.length := by
    rw [bytes_to_bits_length, paddedInput_length hcap, Nat.mul_div_cancel' hdvd, hshape]
  rw [windowSums_spec hW crh.parameters.bases _ hwin hbits, hshape]

/-- Witness for C1: a concrete geometry (`WINDOW_SIZE = 4`, `NUM_WINDOWS = 2`)
and the one-byte input `181`. -/
theorem pedersen_C1_witness :
    PedersenCRH.hash ⟨4, 2⟩
        (PedersenCRH.mk (PedersenCRHParameters.mk [[(1 : Int), 2, 4, 8], [16, 32, 64, 128]]))
        [181]
      = RustResult.ok (specTotal 4 2 [[(1 : Int), 2, 4, 8], [16, 32, 64, 128]]
          (bytes_to_bits (paddedInput ⟨4, 2⟩ [181]))) :=
  pedersen_C1 ⟨4, 2⟩ _ [181] (by decide) (by decide) (by decide) (by decide) (by decide)

/-- C2: any parallel evaluation of the per-window sums (each worker folding
its piece from the identity, pieces combined by an unordered reduce with
identity, modelled by quantifying over every `pieces` whose concatenation is
a permutation of the sequential window-sum list) returns exactly the group
element of the sequential `hash`. -/
theorem pedersen_C2 {G : Type} [AddCommMonoid G] (S : PedersenSize) (crh : PedersenCRH G)
    (input : List Nat) (g : G) (pieces : List (List G))
    (hok : PedersenCRH.hash S crh input = RustResult.ok g)
    (hperm : pieces.flatten.Perm (windowSums S.WINDOW_SIZE crh.parameters.bases
        (bytes_to_bits (paddedInput S input)))) :
    parallelReduce pieces = g := by
  rw [hash_ok_inv hok, foldl_add_eq, zero_add]
  unfold parallelReduce
  rw [foldl_add_eq, zero_add]
  simp only [foldl_add_eq, zero_add]
  rw [← List.sum_flatten]
  exact hperm.sum_eq

/-- Witness for C2: the window sums of hashing byte `181` under
`WINDOW_SIZE = 4`, `NUM_WINDOWS = 2` are `[5, 176]`; combining them in the
swapped order `[[176], [5]]` still gives `181`. -/
theorem pedersen_C2_witness : parallelReduce [[(176 : Int)], [5]] = 181 :=
  pedersen_C2 ⟨4, 2⟩
    (PedersenCRH.mk (PedersenCRHParameters.mk [[(1 : Int), 2, 4, 8], [16, 32, 64, 128]]))
    [181] 181 [[(176 : Int)], [5]] (by decide) (by decide)

/-- C3: `hash` fails with `IncorrectInputLength` carrying the input byte
length, `WINDOW_SIZE` and `NUM_WINDOWS` exactly when the input exceeds
capacity, whatever the parameters look like (so the capacity check runs first,
before the parameter-shape check); an input of exactly the capacity is
accepted (with well-shaped parameters), and oversized input is rejected, never
truncated. -/
theorem pedersen_C3 {G : Type} [AddCommMonoid G] (S : PedersenSize) (crh : PedersenCRH G)
    (input : List Nat) :
    (input.length * 8 > S.WINDOW_SIZE * S.NUM_WINDOWS →
      PedersenCRH.hash S crh input
        = RustResult.err (CRHError.IncorrectInputLength input.length S.WINDOW_SIZE
            S.NUM_WINDOWS)) ∧
    (input.length * 8 ≤ S.WINDOW_SIZE * S.NUM_WINDOWS →
      ∀ a b c, PedersenCRH.hash S crh input
        ≠ RustResult.err (CRHError.IncorrectInputLength a b c)) ∧
    (input.length * 8 = S.WINDOW_SIZE * S.NUM_WINDOWS →
      crh.parameters.bases.length = S.NUM_WINDOWS → 0 < S.WINDOW_SIZE →
      ∃ g, PedersenCRH.hash S crh input = RustResult.ok g) := by
  refine ⟨fun h => hash_capacity_err S crh input h, fun h a b c => ?_,
    fun h hshape hW => ⟨_, hash_ok S crh input (le_of_eq h) hshape hW⟩⟩
  unfold PedersenCRH.hash
  rw [if_neg (by omega)]
  by_cases h2 : crh.parameters.bases.length ≠ S.NUM_WINDOWS
  · rw [if_pos h2]
    cases hb : crh.parameters.bases with
    | nil => exact fun hcon => RustResult.noConfusion hcon
    | cons w0 rest =>
        intro hcon
        injection hcon with h'
        exact CRHError.noConfusion h'
  · rw [if_neg h2]
    by_cases h3 : S.WINDOW_SIZE = 0
    · rw [if_pos h3]
      exact fun hcon => RustResult.noConfusion hcon
    · rw [if_neg h3]
      exact fun hcon => RustResult.noConfusion hcon

/-- Witness for C3: under `WINDOW_SIZE = 64`, `NUM_WINDOWS = 4` (capacity 256
bits) a 33-byte input fails with error data `(33, 64, 4)` and a 32-byte input
hashes successfully. -/
theorem pedersen_C3_witness :
    PedersenCRH.hash ⟨64, 4⟩
        (PedersenCRH.mk (PedersenCRHParameters.mk
          (List.replicate 4 (List.replicate 64 (1 : Int))))) (List.replicate 33 0)
      = RustResult.err (CRHError.IncorrectInputLength 33 64 4)
    ∧ ∃ g, PedersenCRH.hash ⟨64, 4⟩
        (PedersenCRH.mk (PedersenCRHParameters.mk
          (List.replicate 4 (List.replicate 64 (1 : Int))))) (List.replicate 32 0)
      = RustResult.ok g :=
  ⟨(pedersen_C3 ⟨64, 4⟩ _ _).1 (by decide),
   (pedersen_C3 ⟨64, 4⟩ _ _).2.2 (by decide) (by decide) (by decide)⟩

/-- C4 (amended): for every input within capacity and every parameters value
with **at least one window** whose window count differs from `NUM_WINDOWS`,
`hash` fails with `IncorrectParameterSize` carrying (first window's length,
window count present, `WINDOW_SIZE`, `NUM_WINDOWS`). The amendment restricts
to a nonempty window list: with zero windows the error branch's `bases[0]`
indexing panics instead (see the counterexample). -/
theorem pedersen_C4 {G : Type} [AddCommMonoid G] (S : PedersenSize) (crh : PedersenCRH G)
    (input : List Nat) (firstWindow : List G) (rest : List (List G))
    (hcap : input.length * 8 ≤ S.WINDOW_SIZE * S.NUM_WINDOWS)
    (hbases : crh.parameters.bases = firstWindow :: rest)
    (hne : crh.parameters.bases.length ≠ S.NUM_WINDOWS) :
    PedersenCRH.hash S crh input
      = RustResult.err (CRHError.IncorrectParameterSize firstWindow.length
          crh.parameters.bases.length S.WINDOW_SIZE S.NUM_WINDOWS) :=
  hash_shape_err S crh input firstWindow rest (by omega) hbases hne

/-- Counterexample for C4 as stated: with zero windows (`NUM_WINDOWS = 2`
expected, none present) and an in-capacity input, `hash` panics on the
`bases[0]` indexing instead of returning the `IncorrectParameterSize` error
the claim demands. -/
theorem pedersen_C4_counterexample :
    PedersenCRH.hash ⟨8, 2⟩
        (PedersenCRH.mk (PedersenCRHParameters.mk ([] : List (List Int)))) []
      = RustResult.panicked := by
  decide

/-- Witness for C4 (amended): one window present where two are expected. -/
theorem pedersen_C4_witness :
    PedersenCRH.hash ⟨8, 2⟩ (PedersenCRH.mk (PedersenCRHParameters.mk [[(5 : Int)]])) []
      = RustResult.err (CRHError.IncorrectParameterSize 1 1 8 2) :=
  pedersen_C4 ⟨8, 2⟩ _ [] [(5 : Int)] [] (by decide) rfl (by decide)

/-- C5 (amended): for a positive `WINDOW_SIZE` and a parameters value with at
least one window, `hash` is total over its typed result: it either returns a
complete output or fails with exactly one of the two typed errors. The
amendment excludes the zero-window parameters the claim explicitly included:
there the error-construction branch indexes a first window that does not
exist and panics (see the counterexample). -/
theorem pedersen_C5 {G : Type} [AddCommMonoid G] (S : PedersenSize) (crh : PedersenCRH G)
    (input : List Nat) (hW : 0 < S.WINDOW_SIZE) (hne : crh.parameters.bases ≠ []) :
    (∃ g, PedersenCRH.hash S crh input = RustResult.ok g) ∨
    PedersenCRH.hash S crh input
      = RustResult.err (CRHError.IncorrectInputLength input.length S.WINDOW_SIZE
          S.NUM_WINDOWS) ∨
    ∃ firstLen, PedersenCRH.hash S crh input
      = RustResult.err (CRHError.IncorrectParameterSize firstLen
          crh.parameters.bases.length S.WINDOW_SIZE S.NUM_WINDOWS) := by
  by_cases h1 : input.length * 8 > S.WINDOW_SIZE * S.NUM_WINDOWS
  · exact Or.inr (Or.inl (hash_capacity_err S crh input h1))
  · by_cases h2 : crh.parameters.bases.length = S.NUM_WINDOWS
    · exact Or.inl ⟨_, hash_ok S crh input (by omega) h2 hW⟩
    · cases hb : crh.parameters.bases with
      | nil => exact absurd hb hne
      | cons w0 rest =>
          have herr := hash_shape_err S crh input w0 rest h1 hb h2
          rw [hb] at herr
          exact Or.inr (Or.inr ⟨w0.length, herr⟩)

/-- Counterexample for C5 as stated: a parameters value with zero windows
(the case the claim explicitly covers) makes `hash` panic on the `bases[0]`
indexing rather than return an `ok` or one of the two typed errors. -/
theorem pedersen_C5_counterexample :
    PedersenCRH.hash ⟨8, 1⟩
        (PedersenCRH.mk (PedersenCRHParameters.mk ([] : List (List Int)))) [0]
      = RustResult.panicked := by
  decide

/-- Witness for C5 (amended), at a full-capacity input that lands in the
`ok` branch. -/
theorem pedersen_C5_witness :
    (∃ g, PedersenCRH.hash ⟨8, 1⟩
        (PedersenCRH.mk (PedersenCRHParameters.mk [[(1 : Int), 2, 3, 4, 5, 6, 7, 9]])) [7]
      = RustResult.ok g) ∨
    PedersenCRH.hash ⟨8, 1⟩
        (PedersenCRH.mk (PedersenCRHParameters.mk [[(1 : Int), 2, 3, 4, 5, 6, 7, 9]])) [7]
      = RustResult.err (CRHError.IncorrectInputLength (List.length [7]) 8 1) ∨
    ∃ firstLen, PedersenCRH.hash ⟨8, 1⟩
        (PedersenCRH.mk (PedersenCRHParameters.mk [[(1 : Int), 2, 3, 4, 5, 6, 7, 9]])) [7]
      = RustResult.err (CRHError.IncorrectParameterSize firstLen
          (List.length [[(1 : Int), 2, 3, 4, 5, 6, 7, 9]]) 8 1) :=
  pedersen_C5 ⟨8, 1⟩ _ [7] (by decide) (by decide)

/-- C6: hashing an input strictly below capacity equals hashing the same
input explicitly extended with zero bytes up to `capacity / 8` bytes; the
internal padding is a pure zero-extension with identical semantics. -/
theorem pedersen_C6 {G : Type} [AddCommMonoid G] (S : PedersenSize) (crh : PedersenCRH G)
    (input : List Nat)
    (_hshape : crh.parameters.bases.length = S.NUM_WINDOWS)
    (_hwin : ∀ win ∈ crh.parameters.bases, win.length = S.WINDOW_SIZE)
    (hshort : input.length < S.WINDOW_SIZE * S.NUM_WINDOWS / 8) :
    PedersenCRH.hash S crh input
      = PedersenCRH.hash S crh
          (input ++ List.replicate (S.WINDOW_SIZE * S.NUM_WINDOWS / 8 - input.length) 0) := by
  have hcap8 : S.WINDOW_SIZE * S.NUM_WINDOWS / 8 * 8 ≤ S.WINDOW_SIZE * S.NUM_WINDOWS :=
    Nat.div_mul_le_self _ _
  have hlen :
      (input ++ List.replicate (S.WINDOW_SIZE * S.NUM_WINDOWS / 8 - input.length) 0).length
        = S.WINDOW_SIZE * S.NUM_WINDOWS / 8 := by
    simp only [List.length_append, List.length_replicate]
    omega
  have hc1 : ¬ input.length * 8 > S.WINDOW_SIZE * S.NUM_WINDOWS := by omega
  have hc2 :
      ¬ (input ++ List.replicate (S.WINDOW_SIZE * S.NUM_WINDOWS / 8 - input.length) 0).length * 8
        > S.WINDOW_SIZE * S.NUM_WINDOWS := by
    rw [hlen]
    omega
  unfold PedersenCRH.hash
  rw [paddedInput_idem S input hshort]
  rw [if_neg hc1, if_neg hc2]

/-- Witness for C6: the empty input against the one-byte capacity of
`WINDOW_SIZE = 4`, `NUM_WINDOWS = 2`. -/
theorem pedersen_C6_witness :
    PedersenCRH.hash ⟨4, 2⟩
        (PedersenCRH.mk (PedersenCRHParameters.mk [[(1 : Int), 2, 4, 8], [16, 32, 64, 128]]))
        []
      = PedersenCRH.hash ⟨4, 2⟩
          (PedersenCRH.mk (PedersenCRHParameters.mk [[(1 : Int), 2, 4, 8], [16, 32, 64, 128]]))
          ([] ++ List.replicate (4 * 2 / 8 - List.length ([] : List Nat)) 0) :=
  pedersen_C6 ⟨4, 2⟩ _ [] (by decide) (by decide) (by decide)

/-- C7: `bytes_to_bits` is a pure total function returning exactly `8 n`
booleans for `n` input bytes, and the output at global index `8 k + j`
(for `j < 8`) is bit `j` of byte `k`, least-significant bit first. -/
theorem pedersen_C7 (bytes : List Nat) :
    (bytes_to_bits bytes).length = 8 * bytes.length ∧
    ∀ k j, k < bytes.length → j < 8 →
      (bytes_to_bits bytes).getD (8 * k + j) false
        = ((bytes.getD k 0 >>> j) &&& 1 == 1) :=
  ⟨bytes_to_bits_length bytes, bytes_to_bits_getD bytes⟩

/-- Witness for C7 on the two-byte input `[181, 3]`, sampling bit 2 of
byte 1. -/
theorem pedersen_C7_witness :
    (bytes_to_bits [181, 3]).length = 8 * 2 ∧
    (bytes_to_bits [181, 3]).getD (8 * 1 + 2) false = ((3 >>> 2) &&& 1 == 1) :=
  ⟨(pedersen_C7 [181, 3]).1, (pedersen_C7 [181, 3]).2 1 2 (by decide) (by decide)⟩

/-- C8: with nonzero capacity and well-shaped parameters, hashing the empty
byte sequence succeeds and returns exactly the group identity, because the
padding makes the input all-zero and no base is ever selected. -/
theorem pedersen_C8 {G : Type} [AddCommMonoid G] (S : PedersenSize) (crh : PedersenCRH G)
    (hpos : 0 < S.WINDOW_SIZE * S.NUM_WINDOWS)
    (hshape : crh.parameters.bases.length = S.NUM_WINDOWS)
    (_hwin : ∀ win ∈ crh.parameters.bases, win.length = S.WINDOW_SIZE) :
    PedersenCRH.hash S crh [] = RustResult.ok (0 : G) := by
  have hW : 0 < S.WINDOW_SIZE := by
    rcases Nat.eq_zero_or_pos S.WINDOW_SIZE with h0 | h
    · rw [h0, Nat.zero_mul] at hpos; omega
    · exact h
  rw [hash_ok S crh [] (by simp) hshape hW]
  congr 1
  rw [foldl_add_eq, zero_add]
  have hallfalse : ∀ b2 ∈ bytes_to_bits (paddedInput S []), b2 = false := by
    apply bytes_to_bits_zero
    intro y hy
    rw [paddedInput_eq (by simp), List.nil_append] at hy
    exact List.eq_of_mem_replicate hy
  apply List.sum_eq_zero
  intro x hx
  unfold windowSums at hx
  rcases List.mem_map.mp hx with ⟨p, hp, rfl⟩
  apply windowSum_false
  intro bb hbb
  exact hallfalse bb (mem_of_mem_listChunks (List.of_mem_zip hp).1 bb hbb)

/-- Witness for C8 with a concrete two-window parameters value. -/
theorem pedersen_C8_witness :
    PedersenCRH.hash ⟨4, 2⟩
        (PedersenCRH.mk (PedersenCRHParameters.mk [[(3 : Int), 1, 4, 1], [5, 9, 2, 6]])) []
      = RustResult.ok (0 : Int) :=
  pedersen_C8 ⟨4, 2⟩ _ (by decide) (by decide) (by decide)

/-- C9: `to_field_elements` on the evaluator is pure delegation: for every
evaluator and every projection of the wrapped parameters it returns exactly
the delegate's result, on success and on failure alike, with nothing added
and errors passed through unmodified. -/
theorem pedersen_C9 {G E F : Type} (projection : PedersenCRHParameters G → Except E F)
    (crh : PedersenCRH G) :
    PedersenCRH.toFieldElements projection crh = projection crh.parameters := rfl

/-- C10: the per-window base count is never validated: with the right number
of windows but some window `i` shorter than `WINDOW_SIZE`, an in-capacity
input still hashes to `ok`, and the bits of chunk `i` at positions at or past
that window's base count contribute nothing (the paired walk over chunk bits
and window bases stops at the shorter side) — silently computing a different
hash function. -/
theorem pedersen_C10 {G : Type} [AddCommMonoid G] (S : PedersenSize) (crh : PedersenCRH G)
    (input : List Nat) (i : Nat)
    (hshape : crh.parameters.bases.length = S.NUM_WINDOWS)
    (_hi : i < crh.parameters.bases.length)
    (hshort : (crh.parameters.bases.getD i []).length < S.WINDOW_SIZE)
    (hcap : input.length * 8 ≤ S.WINDOW_SIZE * S.NUM_WINDOWS) :
    (∃ g, PedersenCRH.hash S crh input = RustResult.ok g) ∧
    windowSum ((listChunks S.WINDOW_SIZE (bytes_to_bits (paddedInput S input))).getD i [])
        (crh.parameters.bases.getD i [])
      = windowSum
          (((listChunks S.WINDOW_SIZE (bytes_to_bits (paddedInput S input))).getD i []).take
            (crh.parameters.bases.getD i []).length)
          (crh.parameters.bases.getD i []) := by
  have hW : 0 < S.WINDOW_SIZE := by omega
  exact ⟨⟨_, hash_ok S crh input hcap hshape hW⟩, windowSum_take _ _⟩

/-- Witness for C10: window 1 holds a single base where four are declared,
and hashing the byte `9` still succeeds. -/
theorem pedersen_C10_witness :
    (∃ g, PedersenCRH.hash ⟨4, 2⟩
        (PedersenCRH.mk (PedersenCRHParameters.mk [[(1 : Int), 2, 4, 8], [16]])) [9]
      = RustResult.ok g) ∧
    windowSum ((listChunks 4 (bytes_to_bits (paddedInput ⟨4, 2⟩ [9]))).getD 1 [])
        ([[(1 : Int), 2, 4, 8], [16]].getD 1 [])
      = windowSum
          (((listChunks 4 (bytes_to_bits (paddedInput ⟨4, 2⟩ [9]))).getD 1 []).take
            ([[(1 : Int), 2, 4, 8], [16]].getD 1 []).length)
          ([[(1 : Int), 2, 4, 8], [16]].getD 1 []) :=
  pedersen_C10 ⟨4, 2⟩ _ [9] 1 (by decide) (by decide) (by decide) (by decide)
